import Mathlib

/-!
Verification of the `arrayvec` ring-buffer deque (`src/array_vec_deque.rs`,
`src/array.rs`).

The embedding models the Rust code with release-build semantics:
`debug_assert!` statements are compiled out of optimized builds and are
therefore omitted, `usize` arithmetic wraps modulo `2 ^ 64`, and the
unconditional runtime failures (the explicit `panic!` in `wrap_add`, the
`%`-by-zero in `wrap_index`, `unwrap`/`expect`, and reads of uninitialized
slots, which are undefined behavior) are modeled as `Option.none`.

The backing array (`NoDrop<A>` over a fixed `[T; N]`) is modeled as a list
of length `N` whose entries are `Option` values: `none` is an
uninitialized slot, `some v` a slot holding `v`.  The per-size index types
(`u8`/`u16`/`u32` chosen by the macro table in `src/array.rs`) are modeled
as `Nat`: for every supported size the values stored in `tail`/`head` are
below the size, which is at most `65536`, so the `as`-casts in
`Index::from` are the identity on them.
-/

namespace ArrayVecDequeSpec

/-- The number of `usize` values (64-bit target). -/
def USIZE : Nat := 2 ^ 64

/-- Wrapping `usize` subtraction (release builds wrap on underflow).
Both arguments are `usize` values, i.e. below `USIZE`. -/
def wrapping_sub (a b : Nat) : Nat :=
  if b ≤ a then a - b else a + USIZE - b

/-- Wrapping `usize` addition (release builds wrap on overflow). -/
def wrapping_add (a b : Nat) : Nat := (a + b) % USIZE

/-- `count` from `array_vec_deque.rs` lines 235-241: the number of elements
left to be read in the buffer. -/
def count (tail head size : Nat) : Nat :=
  if tail ≤ head then head - tail else wrapping_add (wrapping_sub size tail) head

/-- Free function `wrap_index` from `array_vec_deque.rs` lines 244-247:
`index % size`.  In Rust `%` with a zero divisor panics (in every build
profile); the panic is modeled as `none`. -/
def wrap_index (index size : Nat) : Option Nat :=
  if size = 0 then none else some (index % size)

/-- `CapacityError` carrying the rejected element back to the caller. -/
structure CapacityError (α : Type) where
  element : α

/-- The deque state from `array_vec_deque.rs` lines 20-29: `tail` points to
the first element that could be read, `head` to where data should be
written; the capacity is the length of `buf`. -/
structure ArrayVecDeque (α : Type) where
  tail : Nat
  head : Nat
  buf : List (Option α)

namespace ArrayVecDeque

variable {α : Type}

/-- `new()` (lines 42-50): `tail = head = 0` over an uninitialized array of
`n` slots. -/
def new (α : Type) (n : Nat) : ArrayVecDeque α := ⟨0, 0, List.replicate n none⟩

/-- `cap()` (lines 76-79): `A::capacity()`, the total slot count. -/
def cap (d : ArrayVecDeque α) : Nat := d.buf.length

/-- `len()` (lines 60-63). -/
def len (d : ArrayVecDeque α) : Nat := count d.tail d.head d.cap

/-- `is_empty()` (lines 65-68). -/
def is_empty (d : ArrayVecDeque α) : Bool := d.tail == d.head

/-- `is_full()` (lines 70-74): `cap - len == 1`, with wrapping subtraction in
release builds. -/
def is_full (d : ArrayVecDeque α) : Bool := wrapping_sub d.cap d.len == 1

/-- `capacity()` (lines 81-84): `cap - 1`, with wrapping subtraction in
release builds. -/
def capacity (d : ArrayVecDeque α) : Nat := wrapping_sub d.cap 1

/-- `buffer_read` (lines 91-95): `ptr::read` at offset `off`.  A read of an
uninitialized or out-of-range slot is undefined behavior, modeled by the
caller treating `none` as a failure. -/
def buffer_read (d : ArrayVecDeque α) (off : Nat) : Option α :=
  (d.buf[off]?).getD none

/-- `buffer_write` (lines 97-101): `ptr::write` at offset `off`. -/
def buffer_write (d : ArrayVecDeque α) (off : Nat) (v : α) : ArrayVecDeque α :=
  ⟨d.tail, d.head, d.buf.set off (some v)⟩

/-- Method `wrap_add` (lines 112-122): overflow-checked addition followed by
`wrap_index`; on `usize` overflow the explicit `panic!` fires (`none`).
The two `debug_assert!` bounds checks are compiled out of release builds. -/
def wrap_add (d : ArrayVecDeque α) (idx addend : Nat) : Option Nat :=
  if idx + addend < USIZE then wrap_index (idx + addend) d.cap else none

/-- Method `wrap_sub` (lines 126-136): `checked_sub`, falling back to
`cap - subtrahend + idx` (wrapping in release builds) on underflow.  The
`debug_assert!` bounds checks are compiled out of release builds. -/
def wrap_sub (d : ArrayVecDeque α) (idx subtrahend : Nat) : Option Nat :=
  if subtrahend ≤ idx then wrap_index (idx - subtrahend) d.cap
  else some (wrapping_add (wrapping_sub d.cap subtrahend) idx)

/-- `pop_front` (lines 138-146). -/
def pop_front (d : ArrayVecDeque α) : Option (Option α × ArrayVecDeque α) :=
  if d.is_empty then some (none, d)
  else
    match d.wrap_add d.tail 1 with
    | none => none
    | some t2 =>
      match d.buffer_read d.tail with
      | none => none
      | some v => some (some v, ⟨t2, d.head, d.buf⟩)

/-- `pop_back` (lines 148-156). -/
def pop_back (d : ArrayVecDeque α) : Option (Option α × ArrayVecDeque α) :=
  if d.is_empty then some (none, d)
  else
    match d.wrap_sub d.head 1 with
    | none => none
    | some h2 =>
      match d.buffer_read h2 with
      | none => none
      | some v => some (some v, ⟨d.tail, h2, d.buf⟩)

/-- `try_push_back` (lines 158-167): on a full buffer the value is handed
back in a `CapacityError` and the state is returned untouched; otherwise
the value is written at the old head and the head advances by one. -/
def try_push_back (d : ArrayVecDeque α) (v : α) :
    Option (Except (CapacityError α) Unit × ArrayVecDeque α) :=
  if d.is_full then some (Except.error ⟨v⟩, d)
  else
    match d.wrap_add d.head 1 with
    | none => none
    | some h2 => some (Except.ok (), ⟨d.tail, h2, d.buf.set d.head (some v)⟩)

/-- `try_push_front` (lines 174-185): the tail moves back by one first, then
the value is written at the new tail. -/
def try_push_front (d : ArrayVecDeque α) (v : α) :
    Option (Except (CapacityError α) Unit × ArrayVecDeque α) :=
  if d.is_full then some (Except.error ⟨v⟩, d)
  else
    match d.wrap_sub d.tail 1 with
    | none => none
    | some t2 => some (Except.ok (), ⟨t2, d.head, d.buf.set t2 (some v)⟩)

/-- `push_back` (lines 169-172): `try_push_back(value).unwrap()`; a capacity
error becomes a panic. -/
def push_back (d : ArrayVecDeque α) (v : α) : Option (ArrayVecDeque α) :=
  match d.try_push_back v with
  | some (Except.ok _, d2) => some d2
  | _ => none

/-- `push_front` (lines 187-190). -/
def push_front (d : ArrayVecDeque α) (v : α) : Option (ArrayVecDeque α) :=
  match d.try_push_front v with
  | some (Except.ok _, d2) => some d2
  | _ => none

/-- `get` (lines 198-205): `wrap_add(tail, index)` when `index < len`, else
`None`.  Returning a reference into an uninitialized slot is undefined
behavior (`none`). -/
def get (d : ArrayVecDeque α) (index : Nat) : Option (Option α) :=
  if index < d.len then
    match d.wrap_add d.tail index with
    | none => none
    | some idx =>
      match d.buffer_read idx with
      | none => none
      | some v => some (some v)
  else some none

/-- `get_mut` (lines 207-214): same observable lookup as `get`. -/
def get_mut (d : ArrayVecDeque α) (index : Nat) : Option (Option α) :=
  if index < d.len then
    match d.wrap_add d.tail index with
    | none => none
    | some idx =>
      match d.buffer_read idx with
      | none => none
      | some v => some (some v)
  else some none

/-- The `ops::Index` impl (lines 217-224): `get(index).expect(..)`; the
out-of-bounds `expect` panic is `none`. -/
def index (d : ArrayVecDeque α) (i : Nat) : Option α :=
  match d.get i with
  | some (some v) => some v
  | _ => none

/-- The `ops::IndexMut` impl (lines 226-231). -/
def index_mut (d : ArrayVecDeque α) (i : Nat) : Option α :=
  match d.get_mut i with
  | some (some v) => some v
  | _ => none

/-- The body of `clear` (lines 192-196): `while let Some(_) = pop_front()`.
The loop is run on fuel; on well-formed states `len + 1` iterations always
reach the final `None` pop, so the fuel never runs out there.  The list of
popped elements is returned so the drain order is observable. -/
def clearAux : Nat → ArrayVecDeque α → Option (List α × ArrayVecDeque α)
  | 0, _ => none
  | fuel + 1, d =>
    match d.pop_front with
    | none => none
    | some (none, d2) => some ([], d2)
    | some (some v, d2) =>
      match clearAux fuel d2 with
      | none => none
      | some (vs, d3) => some (v :: vs, d3)

/-- `clear` (lines 192-196), with fuel `len + 1`. -/
def clear (d : ArrayVecDeque α) : Option (List α × ArrayVecDeque α) :=
  clearAux (d.len + 1) d

/-- Contents of logical slot `i` (physical slot `(tail + i) % cap`). -/
def slot (d : ArrayVecDeque α) (i : Nat) : Option α :=
  d.buffer_read ((d.tail + i) % d.cap)

/-- The logical contents of the deque, from tail to head. -/
def toList (d : ArrayVecDeque α) : List α :=
  (List.range d.len).filterMap d.slot

/-- Representation invariant of a well-formed deque: the cursors are in
range (which forces a positive capacity), the capacity is small enough
that index arithmetic cannot overflow `usize`, and every logical slot is
initialized. -/
def RInv (d : ArrayVecDeque α) : Prop :=
  d.tail < d.cap ∧ d.head < d.cap ∧ 2 * d.cap ≤ USIZE ∧
    ∀ i, i < d.len → (d.slot i).isSome

instance (d : ArrayVecDeque α) : Decidable (RInv d) :=
  inferInstanceAs (Decidable (d.tail < d.cap ∧ d.head < d.cap ∧
    2 * d.cap ≤ USIZE ∧ ∀ i, i < d.len → (d.slot i).isSome = true))

end ArrayVecDeque

/-- The array sizes for which `src/array.rs` provides an `Array` impl
(macro invocations at lines 103-167). -/
def supportedSizes : List Nat :=
  List.range 33 ++
    [40, 48, 50, 56, 64, 72, 96, 100, 128, 160, 192, 200, 224,
     256, 384, 512, 768, 1024, 2048, 4096, 8192, 16384, 32768, 65536]

/-- A concrete full deque over two slots (`len = 1 = capacity`): logical
contents `[7]`. -/
def w2 : ArrayVecDeque Nat := ⟨0, 1, [some 7, none]⟩

/-- A concrete non-full deque over three slots: logical contents `[7]`. -/
def w3 : ArrayVecDeque Nat := ⟨0, 1, [some 7, none, none]⟩

/-- States reachable from `new()` over `n` slots through the public
state-changing operations, where the operation actually returned (did not
panic). -/
inductive Reach (α : Type) (n : Nat) : ArrayVecDeque α → Prop where
  | new : Reach α n (ArrayVecDeque.new α n)
  | push_back (v : α) (r : Except (CapacityError α) Unit) (d d2 : ArrayVecDeque α) :
      Reach α n d → d.try_push_back v = some (r, d2) → Reach α n d2
  | push_front (v : α) (r : Except (CapacityError α) Unit) (d d2 : ArrayVecDeque α) :
      Reach α n d → d.try_push_front v = some (r, d2) → Reach α n d2
  | pop_front (r : Option α) (d d2 : ArrayVecDeque α) :
      Reach α n d → d.pop_front = some (r, d2) → Reach α n d2
  | pop_back (r : Option α) (d d2 : ArrayVecDeque α) :
      Reach α n d → d.pop_back = some (r, d2) → Reach α n d2
  | clear (vs : List α) (d d2 : ArrayVecDeque α) :
      Reach α n d → d.clear = some (vs, d2) → Reach α n d2

/-- A push/pop operation for whole-sequence runs. -/
inductive Op (α : Type) where
  | push_back (v : α)
  | push_front (v : α)
  | pop_back
  | pop_front

/-- The plain ordered-list model of a deque: pushes append at the
corresponding end, pops remove from the corresponding end.  Returns the
final list and the result of every pop, in order. -/
def runModel {α : Type} : List (Op α) → List α → List α × List (Option α)
  | [], l => (l, [])
  | Op.push_back v :: ops, l => runModel ops (l ++ [v])
  | Op.push_front v :: ops, l => runModel ops (v :: l)
  | Op.pop_back :: ops, l =>
    ((runModel ops l.dropLast).1, l.getLast? :: (runModel ops l.dropLast).2)
  | Op.pop_front :: ops, l =>
    ((runModel ops l.tail).1, l.head? :: (runModel ops l.tail).2)

/-- Running a sequence of operations on the deque.  Returns the final
state, the number of successful pushes, the number of successful pops, and
the result of every pop in order; `none` if any operation panicked. -/
def runD {α : Type} :
    List (Op α) → ArrayVecDeque α → Option (ArrayVecDeque α × Nat × Nat × List (Option α))
  | [], d => some (d, 0, 0, [])
  | Op.push_back v :: ops, d =>
    match d.try_push_back v with
    | none => none
    | some (Except.error _, d2) => runD ops d2
    | some (Except.ok _, d2) =>
      match runD ops d2 with
      | none => none
      | some (df, p, q, outs) => some (df, p + 1, q, outs)
  | Op.push_front v :: ops, d =>
    match d.try_push_front v with
    | none => none
    | some (Except.error _, d2) => runD ops d2
    | some (Except.ok _, d2) =>
      match runD ops d2 with
      | none => none
      | some (df, p, q, outs) => some (df, p + 1, q, outs)
  | Op.pop_back :: ops, d =>
    match d.pop_back with
    | none => none
    | some (r, d2) =>
      match runD ops d2 with
      | none => none
      | some (df, p, q, outs) =>
        some (df, p, q + (if r.isSome then 1 else 0), r :: outs)
  | Op.pop_front :: ops, d =>
    match d.pop_front with
    | none => none
    | some (r, d2) =>
      match runD ops d2 with
      | none => none
      | some (df, p, q, outs) =>
        some (df, p, q + (if r.isSome then 1 else 0), r :: outs)

/-! ### Arithmetic facts about the wrapping helpers -/

theorem wrapping_sub_of_le {a b : Nat} (h : b ≤ a) : wrapping_sub a b = a - b := by
  simp [wrapping_sub, h]

theorem wrapping_add_eq {a b : Nat} (h : a + b < USIZE) : wrapping_add a b = a + b := by
  simp [wrapping_add, Nat.mod_eq_of_lt h]

theorem count_eq {t h n : Nat} (hn : n ≤ USIZE) (ht : t < n) (hh : h < n) :
    count t h n = (h + (n - t)) % n := by
  unfold count
  split
  case isTrue hle =>
    have h1 : h + (n - t) = (h - t) + n := by omega
    rw [h1, Nat.add_mod_right, Nat.mod_eq_of_lt (by omega)]
  case isFalse hgt =>
    rw [wrapping_sub_of_le (Nat.le_of_lt ht), wrapping_add_eq (by omega),
      Nat.mod_eq_of_lt (by omega)]
    omega

theorem count_lt {t h n : Nat} (hn : n ≤ USIZE) (ht : t < n) (hh : h < n) :
    count t h n < n := by
  rw [count_eq hn ht hh]
  exact Nat.mod_lt _ (by omega)

theorem count_head {t h n : Nat} (hn : n ≤ USIZE) (ht : t < n) (hh : h < n) :
    (t + count t h n) % n = h := by
  rw [count_eq hn ht hh, Nat.add_mod_mod]
  have h1 : t + (h + (n - t)) = h + n := by omega
  rw [h1, Nat.add_mod_right, Nat.mod_eq_of_lt hh]

theorem mod_add_inj {n t i j : Nat} (hi : i < n) (hj : j < n)
    (heq : (t + i) % n = (t + j) % n) : i = j := by
  have h0 : Nat.ModEq n (t + i) (t + j) := heq
  have h1 : i % n = j % n := Nat.ModEq.add_left_cancel' t h0
  rwa [Nat.mod_eq_of_lt hi, Nat.mod_eq_of_lt hj] at h1

theorem count_char {t h n k : Nat} (hn : n ≤ USIZE) (ht : t < n) (hh : h < n)
    (hk : k < n) : count t h n = k ↔ (t + k) % n = h := by
  constructor
  · rintro rfl
    exact count_head hn ht hh
  · intro hk2
    exact mod_add_inj (count_lt hn ht hh) hk ((count_head hn ht hh).trans hk2.symm)

namespace ArrayVecDeque

variable {α : Type}

/-! ### Consequences of the representation invariant -/

theorem cap_le {d : ArrayVecDeque α} (hI : RInv d) : d.cap ≤ USIZE := by
  obtain ⟨_, _, hc, _⟩ := hI
  omega

theorem cap_pos {d : ArrayVecDeque α} (hI : RInv d) : 0 < d.cap := by
  obtain ⟨ht, _, _, _⟩ := hI
  omega

theorem len_lt_cap {d : ArrayVecDeque α} (hI : RInv d) : d.len < d.cap := by
  obtain ⟨ht, hh, hc, _⟩ := hI
  exact count_lt (by omega) ht hh

theorem head_off {d : ArrayVecDeque α} (hI : RInv d) :
    (d.tail + d.len) % d.cap = d.head := by
  obtain ⟨ht, hh, hc, _⟩ := hI
  exact count_head (by omega) ht hh

theorem len_char {d : ArrayVecDeque α} (hI : RInv d) {k : Nat} (hk : k < d.cap) :
    d.len = k ↔ (d.tail + k) % d.cap = d.head := by
  obtain ⟨ht, hh, hc, _⟩ := hI
  exact count_char (by omega) ht hh hk

theorem is_empty_iff {d : ArrayVecDeque α} (hI : RInv d) :
    d.is_empty = true ↔ d.len = 0 := by
  have h0 := len_char hI (cap_pos hI)
  obtain ⟨ht, hh, hc, _⟩ := hI
  unfold is_empty
  rw [beq_iff_eq, h0, Nat.add_zero, Nat.mod_eq_of_lt ht]

theorem is_full_iff {d : ArrayVecDeque α} (hI : RInv d) :
    d.is_full = true ↔ d.len = d.cap - 1 := by
  have hlt := len_lt_cap hI
  have hpos := cap_pos hI
  unfold is_full
  rw [wrapping_sub_of_le (Nat.le_of_lt hlt), beq_iff_eq]
  omega

theorem is_full_false {d : ArrayVecDeque α} (hI : RInv d) (h : d.len + 1 < d.cap) :
    d.is_full = false := by
  rw [Bool.eq_false_iff]
  intro hc
  rw [is_full_iff hI] at hc
  omega

/-! ### The wrapping cursor updates, on in-range inputs -/

theorem wrap_add_eq {d : ArrayVecDeque α} (hc : 0 < d.cap) {idx a : Nat}
    (h : idx + a < USIZE) : d.wrap_add idx a = some ((idx + a) % d.cap) := by
  have hne : d.cap ≠ 0 := by omega
  simp [wrap_add, wrap_index, h, hne]

theorem wrap_add_overflow {d : ArrayVecDeque α} {idx a : Nat} (h : USIZE ≤ idx + a) :
    d.wrap_add idx a = none := by
  simp [wrap_add]
  omega

theorem wrap_sub_one {d : ArrayVecDeque α} (hU : d.cap ≤ USIZE) (hc : 0 < d.cap)
    {x : Nat} (hx : x < d.cap) :
    d.wrap_sub x 1 = some ((x + (d.cap - 1)) % d.cap) := by
  have hne : d.cap ≠ 0 := by omega
  unfold wrap_sub
  split
  case isTrue h1 =>
    simp [wrap_index, hne]
    have h2 : x + (d.cap - 1) = (x - 1) + d.cap := by omega
    rw [h2, Nat.add_mod_right, Nat.mod_eq_of_lt (by omega)]
  case isFalse h1 =>
    have hx0 : x = 0 := by omega
    subst hx0
    rw [wrapping_sub_of_le (by omega), wrapping_add_eq (by omega),
      Nat.mod_eq_of_lt (by omega)]
    congr 1
    omega

theorem cap_def (d : ArrayVecDeque α) : d.buf.length = d.cap := rfl

theorem filterMap_range_length {β : Type} {f : Nat → Option β} :
    ∀ n : Nat, (∀ i, i < n → (f i).isSome) → ((List.range n).filterMap f).length = n := by
  intro n h
  induction n with
  | zero => simp
  | succ m ih =>
    rw [List.range_succ, List.filterMap_append]
    obtain ⟨v, hv⟩ := Option.isSome_iff_exists.mp (h m (by omega))
    simp [hv, ih (fun i hi => h i (by omega))]

theorem toList_length {d : ArrayVecDeque α} (hI : RInv d) :
    (toList d).length = d.len := by
  obtain ⟨_, _, _, hocc⟩ := hI
  exact filterMap_range_length d.len hocc

/-! ### Simulation lemmas: each operation against the list model -/

theorem try_push_back_ok {d : ArrayVecDeque α} (hI : RInv d) (v : α)
    (hroom : d.len + 1 < d.cap) :
    ∃ d2 : ArrayVecDeque α,
      d.try_push_back v = some (Except.ok (), d2) ∧
      d2 = ⟨d.tail, (d.head + 1) % d.cap, d.buf.set d.head (some v)⟩ ∧
      RInv d2 ∧ d2.cap = d.cap ∧ d2.len = d.len + 1 ∧
      d2.slot d.len = some v ∧ toList d2 = toList d ++ [v] := by
  have hful := is_full_false hI hroom
  have hpos := cap_pos hI
  have hlenlt := len_lt_cap hI
  obtain ⟨ht, hh, hc, hocc⟩ := hI
  have hwa : d.wrap_add d.head 1 = some ((d.head + 1) % d.cap) :=
    wrap_add_eq hpos (by omega)
  set d2 : ArrayVecDeque α :=
    ⟨d.tail, (d.head + 1) % d.cap, d.buf.set d.head (some v)⟩ with hd2
  have hcap2 : d2.cap = d.cap := by
    rw [hd2]
    show (d.buf.set d.head (some v)).length = d.cap
    rw [List.length_set, cap_def]
  have hheads : (d.tail + d.len) % d.cap = d.head := count_head (by omega) ht hh
  have hlen2 : d2.len = d.len + 1 := by
    show count d2.tail d2.head d2.cap = d.len + 1
    rw [hcap2, hd2]
    refine (count_char (by omega) ht (Nat.mod_lt _ hpos) hroom).mpr ?_
    rw [show d.tail + (d.len + 1) = d.tail + d.len + 1 from by omega,
      ← Nat.mod_add_mod, hheads]
  have hslotnew : d2.slot d.len = some v := by
    show (d2.buf[(d2.tail + d.len) % d2.cap]?).getD none = some v
    rw [hcap2, hd2]
    show ((d.buf.set d.head (some v))[(d.tail + d.len) % d.cap]?).getD none = some v
    rw [hheads, List.getElem?_set_self (by rw [cap_def]; exact hh)]
    rfl
  have hslotold : ∀ i, i < d.len → d2.slot i = d.slot i := by
    intro i hi
    show (d2.buf[(d2.tail + i) % d2.cap]?).getD none = d.slot i
    rw [hcap2, hd2]
    show ((d.buf.set d.head (some v))[(d.tail + i) % d.cap]?).getD none = d.slot i
    rw [List.getElem?_set_ne]
    · rfl
    · intro hcontra
      have : (d.tail + d.len) % d.cap = (d.tail + i) % d.cap := by rw [hheads, hcontra]
      have := mod_add_inj hlenlt (by omega) this
      omega
  have hto2 : toList d2 = toList d ++ [v] := by
    unfold toList
    rw [hlen2, List.range_succ, List.filterMap_append,
      List.filterMap_congr (fun i hi => hslotold i (List.mem_range.mp hi))]
    simp [hslotnew]
  refine ⟨d2, ?_, rfl, ?_, hcap2, hlen2, hslotnew, hto2⟩
  · simp [try_push_back, hful, hwa, hd2]
  · refine ⟨?_, ?_, ?_, ?_⟩
    · rw [hcap2]; exact ht
    · rw [hcap2, hd2]; exact Nat.mod_lt _ hpos
    · rw [hcap2]; exact hc
    · intro i hi
      rw [hlen2] at hi
      rcases Nat.lt_or_ge i d.len with hlt | hge
      · rw [hslotold i hlt]; exact hocc i hlt
      · have : i = d.len := by omega
        rw [this, hslotnew]
        rfl

theorem try_push_front_ok {d : ArrayVecDeque α} (hI : RInv d) (v : α)
    (hroom : d.len + 1 < d.cap) :
    ∃ d2 : ArrayVecDeque α,
      d.try_push_front v = some (Except.ok (), d2) ∧
      d2 = ⟨(d.tail + (d.cap - 1)) % d.cap, d.head,
        d.buf.set ((d.tail + (d.cap - 1)) % d.cap) (some v)⟩ ∧
      RInv d2 ∧ d2.cap = d.cap ∧ d2.len = d.len + 1 ∧
      d2.slot 0 = some v ∧ toList d2 = v :: toList d := by
  have hful := is_full_false hI hroom
  have hpos := cap_pos hI
  have hlenlt := len_lt_cap hI
  have hcaple := cap_le hI
  obtain ⟨ht, hh, hc, hocc⟩ := hI
  have hws : d.wrap_sub d.tail 1 = some ((d.tail + (d.cap - 1)) % d.cap) :=
    wrap_sub_one hcaple hpos ht
  set t2 : Nat := (d.tail + (d.cap - 1)) % d.cap with ht2
  have ht2lt : t2 < d.cap := Nat.mod_lt _ hpos
  set d2 : ArrayVecDeque α := ⟨t2, d.head, d.buf.set t2 (some v)⟩ with hd2
  have hcap2 : d2.cap = d.cap := by
    rw [hd2]
    show (d.buf.set t2 (some v)).length = d.cap
    rw [List.length_set, cap_def]
  have hheads : (d.tail + d.len) % d.cap = d.head := count_head (by omega) ht hh
  have hshiftpos : ∀ i : Nat, (t2 + (i + 1)) % d.cap = (d.tail + i) % d.cap := by
    intro i
    rw [ht2, Nat.mod_add_mod,
      show d.tail + (d.cap - 1) + (i + 1) = d.tail + i + d.cap from by omega,
      Nat.add_mod_right]
  have hlen2 : d2.len = d.len + 1 := by
    show count d2.tail d2.head d2.cap = d.len + 1
    rw [hcap2, hd2]
    refine (count_char (by omega) ht2lt hh hroom).mpr ?_
    rw [show d.len + 1 = d.len + 1 from rfl, hshiftpos d.len, hheads]
  have hslotnew : d2.slot 0 = some v := by
    show (d2.buf[(d2.tail + 0) % d2.cap]?).getD none = some v
    rw [hcap2, hd2]
    show ((d.buf.set t2 (some v))[(t2 + 0) % d.cap]?).getD none = some v
    rw [Nat.add_zero, Nat.mod_eq_of_lt ht2lt,
      List.getElem?_set_self (by rw [cap_def]; exact ht2lt)]
    rfl
  have hslotshift : ∀ i, i < d.len → d2.slot (i + 1) = d.slot i := by
    intro i hi
    show (d2.buf[(d2.tail + (i + 1)) % d2.cap]?).getD none = d.slot i
    rw [hcap2, hd2]
    show ((d.buf.set t2 (some v))[(t2 + (i + 1)) % d.cap]?).getD none = d.slot i
    rw [hshiftpos i, List.getElem?_set_ne]
    · rfl
    · intro hcontra
      rw [ht2] at hcontra
      have := mod_add_inj (show d.cap - 1 < d.cap from by omega)
        (show i < d.cap from by omega) hcontra
      omega
  have hto2 : toList d2 = v :: toList d := by
    unfold toList
    rw [hlen2, List.range_succ_eq_map, List.filterMap_cons, hslotnew,
      List.filterMap_map]
    show v :: List.filterMap (d2.slot ∘ Nat.succ) (List.range d.len) =
      v :: List.filterMap d.slot (List.range d.len)
    congr 1
    refine List.filterMap_congr ?_
    intro i hi
    exact hslotshift i (List.mem_range.mp hi)
  refine ⟨d2, ?_, rfl, ?_, hcap2, hlen2, hslotnew, hto2⟩
  · simp [try_push_front, hful, hws, hd2]
  · refine ⟨?_, ?_, ?_, ?_⟩
    · rw [hcap2, hd2]; exact ht2lt
    · rw [hcap2]; exact hh
    · rw [hcap2]; exact hc
    · intro i hi
      rw [hlen2] at hi
      match i with
      | 0 => rw [hslotnew]; rfl
      | j + 1 =>
        rw [hslotshift j (by omega)]
        exact hocc j (by omega)

theorem len_pos_of_nonempty {d : ArrayVecDeque α} (hI : RInv d)
    (hne : d.is_empty = false) : 1 ≤ d.len := by
  rcases Nat.eq_zero_or_pos d.len with h0 | h1
  · exfalso
    rw [Bool.eq_false_iff] at hne
    exact hne ((is_empty_iff hI).mpr h0)
  · exact h1

theorem pop_front_ok {d : ArrayVecDeque α} (hI : RInv d) (hne : d.is_empty = false) :
    ∃ (v : α) (d2 : ArrayVecDeque α),
      d.slot 0 = some v ∧ d.buffer_read d.tail = some v ∧
      d.pop_front = some (some v, d2) ∧
      d2 = ⟨(d.tail + 1) % d.cap, d.head, d.buf⟩ ∧
      RInv d2 ∧ d2.cap = d.cap ∧ d2.len + 1 = d.len ∧
      toList d = v :: toList d2 := by
  have hlen1 := len_pos_of_nonempty hI hne
  have hpos := cap_pos hI
  have hlenlt := len_lt_cap hI
  obtain ⟨ht, hh, hc, hocc⟩ := hI
  obtain ⟨v, hv⟩ := Option.isSome_iff_exists.mp (hocc 0 (by omega))
  have hbr : d.buffer_read d.tail = some v := by
    rw [← hv]
    show d.buffer_read d.tail = d.buffer_read ((d.tail + 0) % d.cap)
    rw [Nat.add_zero, Nat.mod_eq_of_lt ht]
  have hwa : d.wrap_add d.tail 1 = some ((d.tail + 1) % d.cap) :=
    wrap_add_eq hpos (by omega)
  set d2 : ArrayVecDeque α := ⟨(d.tail + 1) % d.cap, d.head, d.buf⟩ with hd2
  have hcap2 : d2.cap = d.cap := rfl
  have hheads : (d.tail + d.len) % d.cap = d.head := count_head (by omega) ht hh
  have hshift : ∀ i : Nat, ((d.tail + 1) % d.cap + i) % d.cap = (d.tail + (i + 1)) % d.cap := by
    intro i
    rw [Nat.mod_add_mod, show d.tail + 1 + i = d.tail + (i + 1) from by omega]
  have hslotshift : ∀ i : Nat, d2.slot i = d.slot (i + 1) := by
    intro i
    show (d.buf[((d.tail + 1) % d.cap + i) % d.cap]?).getD none = d.slot (i + 1)
    rw [hshift i]
    rfl
  have hlen2 : d2.len = d.len - 1 := by
    show count d2.tail d2.head d2.cap = d.len - 1
    rw [hcap2, hd2]
    refine (count_char (by omega) (Nat.mod_lt _ hpos) hh (by omega)).mpr ?_
    rw [hshift (d.len - 1), show d.len - 1 + 1 = d.len from by omega, hheads]
  have hto : toList d = v :: toList d2 := by
    unfold toList
    rw [hlen2, show d.len = (d.len - 1) + 1 from by omega, List.range_succ_eq_map,
      List.filterMap_cons, hv, List.filterMap_map]
    show v :: List.filterMap (d.slot ∘ Nat.succ) (List.range (d.len - 1)) =
      v :: List.filterMap d2.slot (List.range (d.len - 1))
    congr 1
    refine List.filterMap_congr ?_
    intro i _
    exact (hslotshift i).symm
  refine ⟨v, d2, hv, hbr, ?_, rfl, ?_, hcap2, by omega, hto⟩
  · simp [pop_front, hne, hwa, hbr, hd2]
  · refine ⟨?_, ?_, ?_, ?_⟩
    · rw [hcap2, hd2]; exact Nat.mod_lt _ hpos
    · rw [hcap2]; exact hh
    · rw [hcap2]; exact hc
    · intro i hi
      rw [hlen2] at hi
      rw [hslotshift i]
      exact hocc (i + 1) (by omega)

theorem pop_back_ok {d : ArrayVecDeque α} (hI : RInv d) (hne : d.is_empty = false) :
    ∃ (v : α) (d2 : ArrayVecDeque α),
      d.slot (d.len - 1) = some v ∧
      d.buffer_read ((d.head + (d.cap - 1)) % d.cap) = some v ∧
      d.pop_back = some (some v, d2) ∧
      d2 = ⟨d.tail, (d.head + (d.cap - 1)) % d.cap, d.buf⟩ ∧
      RInv d2 ∧ d2.cap = d.cap ∧ d2.len + 1 = d.len ∧
      toList d = toList d2 ++ [v] := by
  have hlen1 := len_pos_of_nonempty hI hne
  have hpos := cap_pos hI
  have hlenlt := len_lt_cap hI
  have hcaple := cap_le hI
  obtain ⟨ht, hh, hc, hocc⟩ := hI
  have hheads : (d.tail + d.len) % d.cap = d.head := count_head (by omega) ht hh
  have hpossub : (d.head + (d.cap - 1)) % d.cap = (d.tail + (d.len - 1)) % d.cap := by
    rw [← hheads, Nat.mod_add_mod,
      show d.tail + d.len + (d.cap - 1) = d.tail + (d.len - 1) + d.cap from by omega,
      Nat.add_mod_right]
  obtain ⟨v, hv⟩ := Option.isSome_iff_exists.mp (hocc (d.len - 1) (by omega))
  have hbr : d.buffer_read ((d.head + (d.cap - 1)) % d.cap) = some v := by
    rw [hpossub]
    exact hv
  have hws : d.wrap_sub d.head 1 = some ((d.head + (d.cap - 1)) % d.cap) :=
    wrap_sub_one hcaple hpos hh
  set d2 : ArrayVecDeque α :=
    ⟨d.tail, (d.head + (d.cap - 1)) % d.cap, d.buf⟩ with hd2
  have hcap2 : d2.cap = d.cap := rfl
  have hsloteq : ∀ i : Nat, d2.slot i = d.slot i := fun i => rfl
  have hlen2 : d2.len = d.len - 1 := by
    show count d2.tail d2.head d2.cap = d.len - 1
    rw [hcap2, hd2]
    refine (count_char (by omega) ht (Nat.mod_lt _ hpos) (by omega)).mpr ?_
    exact hpossub.symm
  have hto : toList d = toList d2 ++ [v] := by
    unfold toList
    rw [hlen2, show d.len = (d.len - 1) + 1 from by omega, List.range_succ,
      List.filterMap_append]
    congr 1
    simp [hv]
  refine ⟨v, d2, hv, hbr, ?_, rfl, ?_, hcap2, by omega, hto⟩
  · simp [pop_back, hne, hws, hbr, hd2]
  · refine ⟨?_, ?_, ?_, ?_⟩
    · rw [hcap2]; exact ht
    · rw [hcap2, hd2]; exact Nat.mod_lt _ hpos
    · rw [hcap2]; exact hc
    · intro i hi
      rw [hlen2] at hi
      rw [hsloteq i]
      exact hocc i (by omega)

theorem is_empty_false_of_len_pos {d : ArrayVecDeque α} (hI : RInv d)
    (h : 1 ≤ d.len) : d.is_empty = false := by
  rw [Bool.eq_false_iff]
  intro hc
  rw [is_empty_iff hI] at hc
  omega

theorem clearAux_ok :
    ∀ (n : Nat) (d : ArrayVecDeque α), RInv d → d.len = n →
      clearAux (n + 1) d = some (toList d, ⟨d.head, d.head, d.buf⟩) := by
  intro n
  induction n with
  | zero =>
    intro d hI hlen
    have hth : d.tail = d.head := by
      have h0 := head_off hI
      rw [hlen, Nat.add_zero, Nat.mod_eq_of_lt hI.1] at h0
      exact h0
    have hemp : d.is_empty = true := (is_empty_iff hI).mpr hlen
    have htl : toList d = [] := by
      unfold toList
      rw [hlen]
      rfl
    show clearAux 1 d = some (toList d, ⟨d.head, d.head, d.buf⟩)
    rw [htl]
    simp [clearAux, pop_front, hemp]
    have heta : (⟨d.tail, d.head, d.buf⟩ : ArrayVecDeque α) = ⟨d.head, d.head, d.buf⟩ := by
      rw [hth]
    exact heta
  | succ m ih =>
    intro d hI hlen
    have hne : d.is_empty = false := is_empty_false_of_len_pos hI (by omega)
    obtain ⟨v, d2, hv, hbr, hpop, hd2eq, hI2, hcap2, hlen2, hto⟩ := pop_front_ok hI hne
    have hlen2m : d2.len = m := by omega
    have hrec := ih d2 hI2 hlen2m
    show clearAux (m + 1 + 1) d = some (toList d, ⟨d.head, d.head, d.buf⟩)
    have hstep : clearAux (m + 1 + 1) d =
        match clearAux (m + 1) d2 with
        | none => none
        | some (vs, d3) => some (v :: vs, d3) := by
      rw [clearAux, hpop]
    rw [hstep, hrec, hto]
    subst hd2eq
    rfl

theorem clear_ok {d : ArrayVecDeque α} (hI : RInv d) :
    clear d = some (toList d, ⟨d.head, d.head, d.buf⟩) ∧
      RInv (⟨d.head, d.head, d.buf⟩ : ArrayVecDeque α) ∧
      (⟨d.head, d.head, d.buf⟩ : ArrayVecDeque α).len = 0 := by
  have h1 := clearAux_ok d.len d hI rfl
  have hlen0 : (⟨d.head, d.head, d.buf⟩ : ArrayVecDeque α).len = 0 := by
    show count d.head d.head d.cap = 0
    unfold count
    simp
  refine ⟨h1, ⟨hI.2.1, hI.2.1, hI.2.2.1, ?_⟩, hlen0⟩
  intro i hi
  rw [hlen0] at hi
  omega

/-! ### Preservation of the representation invariant by arbitrary
successful calls -/

theorem room_of_not_full {d : ArrayVecDeque α} (hI : RInv d)
    (hf : d.is_full = false) : d.len + 1 < d.cap := by
  have h1 := len_lt_cap hI
  have h2 := cap_pos hI
  have h3 : ¬ d.len = d.cap - 1 := by
    intro h
    have h4 := (is_full_iff hI).mpr h
    rw [hf] at h4
    cases h4
  omega

theorem pop_front_empty {d : ArrayVecDeque α} (hemp : d.is_empty = true) :
    d.pop_front = some (none, d) := by
  simp [pop_front, hemp]

theorem pop_back_empty {d : ArrayVecDeque α} (hemp : d.is_empty = true) :
    d.pop_back = some (none, d) := by
  simp [pop_back, hemp]

theorem try_push_back_full {d : ArrayVecDeque α} (v : α) (hf : d.is_full = true) :
    d.try_push_back v = some (Except.error ⟨v⟩, d) := by
  simp [try_push_back, hf]

theorem try_push_front_full {d : ArrayVecDeque α} (v : α) (hf : d.is_full = true) :
    d.try_push_front v = some (Except.error ⟨v⟩, d) := by
  simp [try_push_front, hf]

theorem try_push_back_pres {d d2 : ArrayVecDeque α} {v : α}
    {r : Except (CapacityError α) Unit} (hI : RInv d)
    (heq : d.try_push_back v = some (r, d2)) : RInv d2 ∧ d2.cap = d.cap := by
  cases hf : d.is_full with
  | true =>
    rw [try_push_back_full v hf, Option.some.injEq, Prod.mk.injEq] at heq
    rw [← heq.2]
    exact ⟨hI, rfl⟩
  | false =>
    obtain ⟨d3, heq3, _, hI3, hcap3, _, _, _⟩ :=
      try_push_back_ok hI v (room_of_not_full hI hf)
    rw [heq3, Option.some.injEq, Prod.mk.injEq] at heq
    rw [← heq.2]
    exact ⟨hI3, hcap3⟩

theorem try_push_front_pres {d d2 : ArrayVecDeque α} {v : α}
    {r : Except (CapacityError α) Unit} (hI : RInv d)
    (heq : d.try_push_front v = some (r, d2)) : RInv d2 ∧ d2.cap = d.cap := by
  cases hf : d.is_full with
  | true =>
    rw [try_push_front_full v hf, Option.some.injEq, Prod.mk.injEq] at heq
    rw [← heq.2]
    exact ⟨hI, rfl⟩
  | false =>
    obtain ⟨d3, heq3, _, hI3, hcap3, _, _, _⟩ :=
      try_push_front_ok hI v (room_of_not_full hI hf)
    rw [heq3, Option.some.injEq, Prod.mk.injEq] at heq
    rw [← heq.2]
    exact ⟨hI3, hcap3⟩

theorem pop_front_pres {d d2 : ArrayVecDeque α} {r : Option α} (hI : RInv d)
    (heq : d.pop_front = some (r, d2)) : RInv d2 ∧ d2.cap = d.cap := by
  cases hemp : d.is_empty with
  | true =>
    rw [pop_front_empty hemp, Option.some.injEq, Prod.mk.injEq] at heq
    rw [← heq.2]
    exact ⟨hI, rfl⟩
  | false =>
    obtain ⟨w, d3, _, _, heq3, _, hI3, hcap3, _, _⟩ := pop_front_ok hI hemp
    rw [heq3, Option.some.injEq, Prod.mk.injEq] at heq
    rw [← heq.2]
    exact ⟨hI3, hcap3⟩

theorem pop_back_pres {d d2 : ArrayVecDeque α} {r : Option α} (hI : RInv d)
    (heq : d.pop_back = some (r, d2)) : RInv d2 ∧ d2.cap = d.cap := by
  cases hemp : d.is_empty with
  | true =>
    rw [pop_back_empty hemp, Option.some.injEq, Prod.mk.injEq] at heq
    rw [← heq.2]
    exact ⟨hI, rfl⟩
  | false =>
    obtain ⟨w, d3, _, _, heq3, _, hI3, hcap3, _, _⟩ := pop_back_ok hI hemp
    rw [heq3, Option.some.injEq, Prod.mk.injEq] at heq
    rw [← heq.2]
    exact ⟨hI3, hcap3⟩

theorem clear_pres {d d2 : ArrayVecDeque α} {vs : List α} (hI : RInv d)
    (heq : d.clear = some (vs, d2)) : RInv d2 ∧ d2.cap = d.cap := by
  obtain ⟨heq3, hI3, _⟩ := clear_ok hI
  rw [heq3, Option.some.injEq, Prod.mk.injEq] at heq
  rw [← heq.2]
  exact ⟨hI3, rfl⟩

theorem new_cap (α : Type) (n : Nat) : (ArrayVecDeque.new α n).cap = n := by
  show (List.replicate n (none : Option α)).length = n
  rw [List.length_replicate]

theorem new_len (α : Type) (n : Nat) : (ArrayVecDeque.new α n).len = 0 := rfl

theorem new_rinv (α : Type) {n : Nat} (hn : 0 < n) (hns : 2 * n ≤ USIZE) :
    RInv (ArrayVecDeque.new α n) := by
  have hcap := new_cap α n
  refine ⟨by rw [hcap]; exact hn, by rw [hcap]; exact hn, by rw [hcap]; exact hns, ?_⟩
  intro i hi
  rw [new_len] at hi
  omega

theorem reach_rinv {α : Type} {n : Nat} (hn : 0 < n) (hns : 2 * n ≤ USIZE) :
    ∀ d : ArrayVecDeque α, Reach α n d → RInv d ∧ d.cap = n := by
  intro d hr
  induction hr with
  | new => exact ⟨new_rinv α hn hns, new_cap α n⟩
  | push_back v r da d2 hra heq ih =>
    obtain ⟨hb2, hc2⟩ := try_push_back_pres ih.1 heq
    exact ⟨hb2, hc2.trans ih.2⟩
  | push_front v r da d2 hra heq ih =>
    obtain ⟨hb2, hc2⟩ := try_push_front_pres ih.1 heq
    exact ⟨hb2, hc2.trans ih.2⟩
  | pop_front r da d2 hra heq ih =>
    obtain ⟨hb2, hc2⟩ := pop_front_pres ih.1 heq
    exact ⟨hb2, hc2.trans ih.2⟩
  | pop_back r da d2 hra heq ih =>
    obtain ⟨hb2, hc2⟩ := pop_back_pres ih.1 heq
    exact ⟨hb2, hc2.trans ih.2⟩
  | clear vs da d2 hra heq ih =>
    obtain ⟨hb2, hc2⟩ := clear_pres ih.1 heq
    exact ⟨hb2, hc2.trans ih.2⟩

/-! ### Random access -/

theorem get_lt {d : ArrayVecDeque α} (hI : RInv d) {i : Nat} (hi : i < d.len) :
    ∃ v : α, d.wrap_add d.tail i = some ((d.tail + i) % d.cap) ∧
      d.buffer_read ((d.tail + i) % d.cap) = some v ∧
      d.get i = some (some v) ∧ d.get_mut i = some (some v) ∧
      d.index i = some v ∧ d.index_mut i = some v := by
  have hlenlt := len_lt_cap hI
  have hpos := cap_pos hI
  obtain ⟨ht, hh, hc, hocc⟩ := hI
  have hwa : d.wrap_add d.tail i = some ((d.tail + i) % d.cap) :=
    wrap_add_eq hpos (by omega)
  obtain ⟨v, hv⟩ := Option.isSome_iff_exists.mp (hocc i hi)
  have hbr : d.buffer_read ((d.tail + i) % d.cap) = some v := hv
  have hget : d.get i = some (some v) := by
    simp [get, hi, hwa, hbr]
  have hgetm : d.get_mut i = some (some v) := by
    simp [get_mut, hi, hwa, hbr]
  refine ⟨v, hwa, hbr, hget, hgetm, ?_, ?_⟩
  · simp [index, hget]
  · simp [index_mut, hgetm]

theorem get_ge {d : ArrayVecDeque α} {i : Nat} (hi : d.len ≤ i) :
    d.get i = some none ∧ d.get_mut i = some none ∧
      d.index i = none ∧ d.index_mut i = none := by
  have hnot : ¬ i < d.len := by omega
  refine ⟨by simp [get, hnot], by simp [get_mut, hnot], ?_, ?_⟩
  · simp [index, get, hnot]
  · simp [index_mut, get_mut, hnot]

/-! ### Whole-sequence simulation against the plain list model -/

theorem runD_sim {α : Type} (n : Nat) :
    ∀ (ops : List (Op α)) (d : ArrayVecDeque α) (l : List α),
      RInv d → d.cap = n → toList d = l →
      (∀ k, k ≤ ops.length → ((runModel (ops.take k) l).1).length + 1 ≤ n) →
      ∃ df p q outs,
        runD ops d = some (df, p, q, outs) ∧ RInv df ∧ df.cap = n ∧
        toList df = (runModel ops l).1 ∧ outs = (runModel ops l).2 ∧
        (toList df).length + q = l.length + p := by
  intro ops
  induction ops with
  | nil =>
    intro d l hI hcap hto hb
    exact ⟨d, 0, 0, [], rfl, hI, hcap, by simp [runModel, hto], by simp [runModel],
      by rw [hto]⟩
  | cons op rest ih =>
    intro d l hI hcap hto hb
    have hlen : d.len = l.length := by
      have h1 := toList_length hI
      rw [hto] at h1
      omega
    cases op with
    | push_back v =>
      have hb1 := hb 1 (by simp)
      simp [runModel] at hb1
      have hroom : d.len + 1 < n := by omega
      obtain ⟨d2, heqp, _, hI2, hcap2, hlen2, _, hto2⟩ :=
        try_push_back_ok hI v (by rw [hcap]; exact hroom)
      have hbrest : ∀ k, k ≤ rest.length →
          ((runModel (rest.take k) (l ++ [v])).1).length + 1 ≤ n := by
        intro k hk
        have h2 := hb (k + 1) (by simpa using Nat.succ_le_succ hk)
        simpa [runModel] using h2
      obtain ⟨df, p, q, outs, hrun, hIf, hcapf, htof, houts, hcnt⟩ :=
        ih d2 (l ++ [v]) hI2 (hcap2.trans hcap) (by rw [hto2, hto]) hbrest
      refine ⟨df, p + 1, q, outs, ?_, hIf, hcapf, ?_, ?_, ?_⟩
      · rw [runD, heqp]
        show (match runD rest d2 with
          | none => none
          | some (df, p, q, outs) => some (df, p + 1, q, outs)) =
          some (df, p + 1, q, outs)
        rw [hrun]
      · simpa [runModel] using htof
      · simpa [runModel] using houts
      · rw [List.length_append] at hcnt
        simp [runModel] at hcnt ⊢
        omega
    | push_front v =>
      have hb1 := hb 1 (by simp)
      simp [runModel] at hb1
      have hroom : d.len + 1 < n := by omega
      obtain ⟨d2, heqp, _, hI2, hcap2, hlen2, _, hto2⟩ :=
        try_push_front_ok hI v (by rw [hcap]; exact hroom)
      have hbrest : ∀ k, k ≤ rest.length →
          ((runModel (rest.take k) (v :: l)).1).length + 1 ≤ n := by
        intro k hk
        have h2 := hb (k + 1) (by simpa using Nat.succ_le_succ hk)
        simpa [runModel] using h2
      obtain ⟨df, p, q, outs, hrun, hIf, hcapf, htof, houts, hcnt⟩ :=
        ih d2 (v :: l) hI2 (hcap2.trans hcap) (by rw [hto2, hto]) hbrest
      refine ⟨df, p + 1, q, outs, ?_, hIf, hcapf, ?_, ?_, ?_⟩
      · rw [runD, heqp]
        show (match runD rest d2 with
          | none => none
          | some (df, p, q, outs) => some (df, p + 1, q, outs)) =
          some (df, p + 1, q, outs)
        rw [hrun]
      · simpa [runModel] using htof
      · simpa [runModel] using houts
      · simp [runModel] at hcnt ⊢
        omega
    | pop_front =>
      cases hemp : d.is_empty with
      | true =>
        have hl0 : l = [] := by
          have h0 := (is_empty_iff hI).mpr
          have h1 := (is_empty_iff hI).mp hemp
          rw [hlen] at h1
          exact List.length_eq_zero.mp h1
        subst hl0
        have hbrest : ∀ k, k ≤ rest.length →
            ((runModel (rest.take k) ([] : List α)).1).length + 1 ≤ n := by
          intro k hk
          have h2 := hb (k + 1) (by simpa using Nat.succ_le_succ hk)
          simpa [runModel] using h2
        obtain ⟨df, p, q, outs, hrun, hIf, hcapf, htof, houts, hcnt⟩ :=
          ih d [] hI hcap hto hbrest
        refine ⟨df, p, q, none :: outs, ?_, hIf, hcapf, ?_, ?_, ?_⟩
        · rw [runD, pop_front_empty hemp]
          show (match runD rest d with
            | none => none
            | some (df, p, q, outs) =>
              some (df, p, q + (if (none : Option α).isSome then 1 else 0),
                none :: outs)) = some (df, p, q, none :: outs)
          rw [hrun]
          rfl
        · simpa [runModel] using htof
        · simp [runModel]
          exact houts
        · simpa [runModel] using hcnt
      | false =>
        obtain ⟨w, d2, hsl, hbr, hpop, hd2eq, hI2, hcap2, hlen2, htosplit⟩ :=
          pop_front_ok hI hemp
        rw [hto] at htosplit
        have hbrest : ∀ k, k ≤ rest.length →
            ((runModel (rest.take k) l.tail).1).length + 1 ≤ n := by
          intro k hk
          have h2 := hb (k + 1) (by simpa using Nat.succ_le_succ hk)
          simpa [runModel] using h2
        have hto2 : toList d2 = l.tail := by
          rw [htosplit]
          rfl
        have hhead : l.head? = some w := by
          rw [htosplit]
          rfl
        obtain ⟨df, p, q, outs, hrun, hIf, hcapf, htof, houts, hcnt⟩ :=
          ih d2 l.tail hI2 (hcap2.trans hcap) hto2 hbrest
        refine ⟨df, p, q + 1, some w :: outs, ?_, hIf, hcapf, ?_, ?_, ?_⟩
        · rw [runD, hpop]
          show (match runD rest d2 with
            | none => none
            | some (df, p, q, outs) =>
              some (df, p, q + (if (some w).isSome then 1 else 0),
                some w :: outs)) = some (df, p, q + 1, some w :: outs)
          rw [hrun]
          rfl
        · simpa [runModel] using htof
        · simp [runModel, hhead]
          exact houts
        · simp [runModel] at hcnt ⊢
          rw [htosplit] at *
          simp at hcnt ⊢
          omega
    | pop_back =>
      cases hemp : d.is_empty with
      | true =>
        have hl0 : l = [] := by
          have h1 := (is_empty_iff hI).mp hemp
          rw [hlen] at h1
          exact List.length_eq_zero.mp h1
        subst hl0
        have hbrest : ∀ k, k ≤ rest.length →
            ((runModel (rest.take k) ([] : List α)).1).length + 1 ≤ n := by
          intro k hk
          have h2 := hb (k + 1) (by simpa using Nat.succ_le_succ hk)
          simpa [runModel] using h2
        obtain ⟨df, p, q, outs, hrun, hIf, hcapf, htof, houts, hcnt⟩ :=
          ih d [] hI hcap hto hbrest
        refine ⟨df, p, q, none :: outs, ?_, hIf, hcapf, ?_, ?_, ?_⟩
        · rw [runD, pop_back_empty hemp]
          show (match runD rest d with
            | none => none
            | some (df, p, q, outs) =>
              some (df, p, q + (if (none : Option α).isSome then 1 else 0),
                none :: outs)) = some (df, p, q, none :: outs)
          rw [hrun]
          rfl
        · simpa [runModel] using htof
        · simp [runModel]
          exact houts
        · simpa [runModel] using hcnt
      | false =>
        obtain ⟨w, d2, hsl, hbr, hpop, hd2eq, hI2, hcap2, hlen2, htosplit⟩ :=
          pop_back_ok hI hemp
        rw [hto] at htosplit
        have hto2 : toList d2 = l.dropLast := by
          rw [htosplit, List.dropLast_concat]
        have hlast : l.getLast? = some w := by
          rw [htosplit, List.getLast?_concat]
        have hbrest : ∀ k, k ≤ rest.length →
            ((runModel (rest.take k) l.dropLast).1).length + 1 ≤ n := by
          intro k hk
          have h2 := hb (k + 1) (by simpa using Nat.succ_le_succ hk)
          simpa [runModel] using h2
        obtain ⟨df, p, q, outs, hrun, hIf, hcapf, htof, houts, hcnt⟩ :=
          ih d2 l.dropLast hI2 (hcap2.trans hcap) hto2 hbrest
        refine ⟨df, p, q + 1, some w :: outs, ?_, hIf, hcapf, ?_, ?_, ?_⟩
        · rw [runD, hpop]
          show (match runD rest d2 with
            | none => none
            | some (df, p, q, outs) =>
              some (df, p, q + (if (some w).isSome then 1 else 0),
                some w :: outs)) = some (df, p, q + 1, some w :: outs)
          rw [hrun]
          rfl
        · simpa [runModel] using htof
        · simp [runModel, hlast]
          exact houts
        · simp [runModel] at hcnt ⊢
          rw [htosplit] at *
          simp at hcnt ⊢
          omega

/-! ### Supported sizes -/

theorem supported_le : ∀ m ∈ supportedSizes, m ≤ 65536 := by decide

theorem supported_small {n : Nat} (h : n ∈ supportedSizes) : 2 * n ≤ USIZE := by
  have h1 := supported_le n h
  have h2 : 2 * 65536 ≤ USIZE := by norm_num [USIZE]
  omega

theorem add_one_sub_one_mod {n x : Nat} (hn : 0 < n) (hx : x < n) :
    ((x + 1) % n + (n - 1)) % n = x := by
  rw [Nat.mod_add_mod, show x + 1 + (n - 1) = x + n from by omega,
    Nat.add_mod_right, Nat.mod_eq_of_lt hx]

theorem ne_of_len_pos {d : ArrayVecDeque α} (hI : RInv d) (h : 1 ≤ d.len) :
    d.tail ≠ d.head := by
  have h1 := is_empty_false_of_len_pos hI h
  intro hcontra
  have h2 : d.is_empty = true := by
    unfold is_empty
    rw [beq_iff_eq]
    exact hcontra
  rw [h1] at h2
  cases h2

theorem toList_nil {d : ArrayVecDeque α} (h : d.len = 0) : toList d = [] := by
  unfold toList
  rw [h]
  rfl

/-! ### Claim theorems -/

/-- C1: for every buffer state in which the buffer is full and every value
`v`, `try_push_back(v)` and `try_push_front(v)` return a capacity error
carrying exactly `v`, and the buffer state (tail, head, and every stored
element) is returned identically unchanged. -/
theorem c1_full_push_rejects_unchanged {α : Type} (d : ArrayVecDeque α) (v : α)
    (hfull : d.is_full = true) :
    d.try_push_back v = some (Except.error ⟨v⟩, d) ∧
    d.try_push_front v = some (Except.error ⟨v⟩, d) :=
  ⟨try_push_back_full v hfull, try_push_front_full v hfull⟩

/-- Witness for C1 at the concrete full deque `w2` and value `9`. -/
theorem c1_witness :
    w2.is_full = true ∧
    (w2.try_push_back 9 = some (Except.error ⟨9⟩, w2) ∧
     w2.try_push_front 9 = some (Except.error ⟨9⟩, w2)) :=
  ⟨by decide, c1_full_push_rejects_unchanged w2 9 (by decide)⟩

/-- C3 counterexample: with capacity 3, index 0 and addend 3 (addend ≥ N),
`wrap_add` does not fail; it silently returns `(0 + 3) mod 3 = 0`. -/
theorem c3_counterexample :
    (0 : Nat) < (ArrayVecDeque.new Nat 3).cap ∧
    (ArrayVecDeque.new Nat 3).cap ≤ 3 ∧
    (ArrayVecDeque.new Nat 3).wrap_add 0 3 = some ((0 + 3) % 3) ∧
    (ArrayVecDeque.new Nat 3).wrap_add 0 3 ≠ none := by
  refine ⟨by decide, by decide, by decide, by decide⟩

/-- C3 amended: in release builds (the `debug_assert!` bounds checks are
compiled out), `wrap_add` with any addend — including addend ≥ N — silently
returns `(idx + addend) mod N` as long as `idx + addend` does not overflow
`usize`; it fails fatally only on `usize` overflow.  Likewise `wrap_sub`
with subtrahend = N silently returns `idx` instead of failing. -/
theorem c3_amended_silent_wrap {α : Type} (d : ArrayVecDeque α) (idx a : Nat)
    (hc : 0 < d.cap) (hcle : d.cap ≤ USIZE) :
    (idx + a < USIZE → d.wrap_add idx a = some ((idx + a) % d.cap)) ∧
    (USIZE ≤ idx + a → d.wrap_add idx a = none) ∧
    (idx < d.cap → d.wrap_sub idx d.cap = some idx) := by
  refine ⟨fun h => wrap_add_eq hc h, fun h => wrap_add_overflow h, fun hidx => ?_⟩
  unfold wrap_sub
  split
  case isTrue h1 => exact absurd h1 (by omega)
  case isFalse h1 =>
    rw [wrapping_sub_of_le (Nat.le_refl _), Nat.sub_self,
      wrapping_add_eq (by omega), Nat.zero_add]

/-- Witness for C3 (amended) at capacity 3, index 0, addend 3. -/
theorem c3_amended_witness :
    ((0 : Nat) < (ArrayVecDeque.new Nat 3).cap ∧ (ArrayVecDeque.new Nat 3).cap ≤ USIZE) ∧
    ((0 + 3 < USIZE →
        (ArrayVecDeque.new Nat 3).wrap_add 0 3 =
          some ((0 + 3) % (ArrayVecDeque.new Nat 3).cap)) ∧
      (USIZE ≤ 0 + 3 → (ArrayVecDeque.new Nat 3).wrap_add 0 3 = none) ∧
      (0 < (ArrayVecDeque.new Nat 3).cap →
        (ArrayVecDeque.new Nat 3).wrap_sub 0 (ArrayVecDeque.new Nat 3).cap = some 0)) :=
  ⟨⟨by decide, by decide⟩,
    c3_amended_silent_wrap (ArrayVecDeque.new Nat 3) 0 3 (by decide) (by decide)⟩

/-- C9 counterexample: the array size 0 is supported, and on it
`capacity()` computes `0usize - 1`, which wraps to `2 ^ 64 - 1` instead of
the claimed `N - 1`. -/
theorem c9_counterexample :
    (0 : Nat) ∈ supportedSizes ∧
    (ArrayVecDeque.new Nat 0).capacity = USIZE - 1 ∧
    ((ArrayVecDeque.new Nat 0).capacity : Int) ≠ (0 : Int) - 1 := by
  refine ⟨by decide, by decide, by decide⟩

/-- C9 amended: for every supported size N ≥ 1, `capacity()` returns
`N - 1` on every state reachable from `new()`, hence the same value at
every point of the instance's lifetime regardless of the push/pop
history.  (At the supported size N = 0 it instead returns the underflowed
value `2 ^ 64 - 1`, also constant; see C10.) -/
theorem c9_amended_capacity_constant {α : Type} {n : Nat}
    (hsup : n ∈ supportedSizes) (hn : 1 ≤ n) (d : ArrayVecDeque α)
    (hr : Reach α n d) : d.capacity = n - 1 := by
  obtain ⟨hI, hcap⟩ := reach_rinv (by omega) (supported_small hsup) d hr
  unfold capacity
  rw [hcap, wrapping_sub_of_le hn]

/-- Witness for C9 (amended) at size 3 and the freshly constructed state. -/
theorem c9_amended_witness :
    ((3 : Nat) ∈ supportedSizes ∧ (1 : Nat) ≤ 3 ∧
      Reach Nat 3 (ArrayVecDeque.new Nat 3)) ∧
    (ArrayVecDeque.new Nat 3).capacity = 3 - 1 :=
  ⟨⟨by decide, by decide, Reach.new⟩,
    c9_amended_capacity_constant (by decide) (by decide) _ Reach.new⟩

/-- C10: at the supported array size 0, a fresh buffer reports
`is_full() = false` (because `cap - len = 0 ≠ 1`), so `try_push_back` does
not return a capacity error: it reaches `wrap_index`'s unguarded `% 0`
(a division-by-zero panic, modeled as `none`); and `capacity()` computes
`0usize - 1`, which underflows to `2 ^ 64 - 1` instead of yielding
`N - 1`. -/
theorem c10_size_zero_anomalies :
    (0 : Nat) ∈ supportedSizes ∧
    (ArrayVecDeque.new Nat 0).is_full = false ∧
    (∀ v : Nat, (ArrayVecDeque.new Nat 0).try_push_back v = none) ∧
    (ArrayVecDeque.new Nat 0).wrap_add 0 1 = wrap_index 1 0 ∧
    wrap_index 1 0 = none ∧
    (ArrayVecDeque.new Nat 0).capacity = USIZE - 1 := by
  refine ⟨by decide, by decide, fun v => rfl, rfl, rfl, by decide⟩

/-- C2: for every supported capacity N and every sequence of
push/pop operations during which the occupied-slot count never exceeds
N - 1 (so no push is attempted on a full buffer), the deque run from
`new()` panics nowhere and is observationally equivalent to the plain
ordered-list model: the final logical contents equal the model list, every
pop returns what the model pop returns, and the final `len()` equals the
number of successful pushes minus the number of successful pops. -/
theorem c2_list_model_refinement {α : Type} (n : Nat) (hsup : n ∈ supportedSizes)
    (ops : List (Op α))
    (hbound : ∀ k, k ≤ ops.length →
      ((runModel (ops.take k) ([] : List α)).1).length + 1 ≤ n) :
    ∃ df p q outs,
      runD ops (ArrayVecDeque.new α n) = some (df, p, q, outs) ∧
      toList df = (runModel ops ([] : List α)).1 ∧
      outs = (runModel ops ([] : List α)).2 ∧
      df.len = (runModel ops ([] : List α)).1.length ∧
      df.len + q = p := by
  have hn : 0 < n := by
    have h0 := hbound 0 (by omega)
    simpa [runModel] using h0
  have hns := supported_small hsup
  have hI0 := new_rinv α hn hns
  obtain ⟨df, p, q, outs, hrun, hIf, hcapf, htof, houts, hcnt⟩ :=
    runD_sim n ops (ArrayVecDeque.new α n) [] hI0 (new_cap α n) rfl hbound
  have hlf := toList_length hIf
  refine ⟨df, p, q, outs, hrun, htof, houts, ?_, ?_⟩
  · rw [← hlf, htof]
  · simp at hcnt
    omega

/-- Witness for C2: capacity 3 with the repository's own wrap-around test
sequence. -/
theorem c2_witness :
    ((3 : Nat) ∈ supportedSizes ∧
      (∀ k, k ≤ ([Op.push_back 1, Op.push_back 2, Op.pop_front, Op.push_back 3,
          Op.pop_front, Op.pop_front] : List (Op Nat)).length →
        ((runModel (([Op.push_back 1, Op.push_back 2, Op.pop_front, Op.push_back 3,
          Op.pop_front, Op.pop_front] : List (Op Nat)).take k) ([] : List Nat)).1).length + 1 ≤ 3)) ∧
    (∃ df p q outs,
      runD ([Op.push_back 1, Op.push_back 2, Op.pop_front, Op.push_back 3,
          Op.pop_front, Op.pop_front] : List (Op Nat)) (ArrayVecDeque.new Nat 3) =
        some (df, p, q, outs) ∧
      toList df = (runModel ([Op.push_back 1, Op.push_back 2, Op.pop_front,
          Op.push_back 3, Op.pop_front, Op.pop_front] : List (Op Nat)) ([] : List Nat)).1 ∧
      outs = (runModel ([Op.push_back 1, Op.push_back 2, Op.pop_front,
          Op.push_back 3, Op.pop_front, Op.pop_front] : List (Op Nat)) ([] : List Nat)).2 ∧
      df.len = ((runModel ([Op.push_back 1, Op.push_back 2, Op.pop_front,
          Op.push_back 3, Op.pop_front, Op.pop_front] : List (Op Nat)) ([] : List Nat)).1).length ∧
      df.len + q = p) :=
  ⟨⟨by decide, by decide⟩,
    c2_list_model_refinement 3 (by decide)
      [Op.push_back 1, Op.push_back 2, Op.pop_front, Op.push_back 3,
        Op.pop_front, Op.pop_front] (by decide)⟩

/-- C4 counterexample: the array size 0 is supported, `new()` is reachable
by the empty operation sequence, yet its tail (= 0) does not lie in
[0, N) = [0, 0), so the claimed invariant fails already at `new()`. -/
theorem c4_counterexample :
    (0 : Nat) ∈ supportedSizes ∧
    Reach Nat 0 (ArrayVecDeque.new Nat 0) ∧
    (ArrayVecDeque.new Nat 0).tail = 0 ∧
    ¬ (ArrayVecDeque.new Nat 0).tail < (ArrayVecDeque.new Nat 0).cap :=
  ⟨by decide, Reach.new, rfl, by decide⟩

/-- C4 amended: for every supported size N ≥ 1, every state reachable from
`new()` through the public operations keeps `tail` and `head` in [0, N),
keeps at most N - 1 slots logically occupied, has `tail = head` exactly in
the empty state, and no successful push ever produces a state with
`head = tail`. -/
theorem c4_amended_invariants {α : Type} {n : Nat} (hsup : n ∈ supportedSizes)
    (hn : 1 ≤ n) (d : ArrayVecDeque α) (hr : Reach α n d) :
    d.tail < n ∧ d.head < n ∧ d.len ≤ n - 1 ∧ (d.tail = d.head ↔ d.len = 0) ∧
    (∀ (v : α) (d2 : ArrayVecDeque α),
      (d.try_push_back v = some (Except.ok (), d2) ∨
        d.try_push_front v = some (Except.ok (), d2)) → d2.tail ≠ d2.head) := by
  have hns := supported_small hsup
  obtain ⟨hI, hcap⟩ := reach_rinv (by omega) hns d hr
  have hlt := len_lt_cap hI
  rw [hcap] at hlt
  have hiff := is_empty_iff hI
  refine ⟨by rw [← hcap]; exact hI.1, by rw [← hcap]; exact hI.2.1, by omega, ?_, ?_⟩
  · constructor
    · intro h
      refine hiff.mp ?_
      unfold is_empty
      rw [beq_iff_eq]
      exact h
    · intro h
      have h2 := hiff.mpr h
      unfold is_empty at h2
      rw [beq_iff_eq] at h2
      exact h2
  · intro v d2 hor
    rcases hor with heq | heq
    · cases hf : d.is_full with
      | true =>
        rw [try_push_back_full v hf, Option.some.injEq, Prod.mk.injEq] at heq
        cases heq.1
      | false =>
        obtain ⟨d3, heq3, _, hI3, _, hlen3, _, _⟩ :=
          try_push_back_ok hI v (room_of_not_full hI hf)
        rw [heq3, Option.some.injEq, Prod.mk.injEq] at heq
        rw [← heq.2]
        exact ne_of_len_pos hI3 (by omega)
    · cases hf : d.is_full with
      | true =>
        rw [try_push_front_full v hf, Option.some.injEq, Prod.mk.injEq] at heq
        cases heq.1
      | false =>
        obtain ⟨d3, heq3, _, hI3, _, hlen3, _, _⟩ :=
          try_push_front_ok hI v (room_of_not_full hI hf)
        rw [heq3, Option.some.injEq, Prod.mk.injEq] at heq
        rw [← heq.2]
        exact ne_of_len_pos hI3 (by omega)

/-- Witness for C4 (amended) at size 3 and the freshly constructed state. -/
theorem c4_amended_witness :
    ((3 : Nat) ∈ supportedSizes ∧ (1 : Nat) ≤ 3 ∧
      Reach Nat 3 (ArrayVecDeque.new Nat 3)) ∧
    ((ArrayVecDeque.new Nat 3).tail < 3 ∧ (ArrayVecDeque.new Nat 3).head < 3 ∧
      (ArrayVecDeque.new Nat 3).len ≤ 3 - 1 ∧
      ((ArrayVecDeque.new Nat 3).tail = (ArrayVecDeque.new Nat 3).head ↔
        (ArrayVecDeque.new Nat 3).len = 0) ∧
      (∀ (v : Nat) (d2 : ArrayVecDeque Nat),
        ((ArrayVecDeque.new Nat 3).try_push_back v = some (Except.ok (), d2) ∨
          (ArrayVecDeque.new Nat 3).try_push_front v = some (Except.ok (), d2)) →
          d2.tail ≠ d2.head)) :=
  ⟨⟨by decide, by decide, Reach.new⟩,
    c4_amended_invariants (by decide) (by decide) _ Reach.new⟩

/-- C5: on every well-formed buffer state, for `i < len()` both `get(i)`
and `get_mut(i)` return the element stored at physical slot
`wrap_add(tail, i)` and both indexing operators return that same element;
for `i ≥ len()`, `get`/`get_mut` return an empty result and the indexing
operators fail fatally. -/
theorem c5_get_index_contract {α : Type} (d : ArrayVecDeque α) (i : Nat)
    (hI : RInv d) :
    (i < d.len → ∃ v : α,
      d.wrap_add d.tail i = some ((d.tail + i) % d.cap) ∧
      d.buffer_read ((d.tail + i) % d.cap) = some v ∧
      d.get i = some (some v) ∧ d.get_mut i = some (some v) ∧
      d.index i = some v ∧ d.index_mut i = some v) ∧
    (d.len ≤ i → d.get i = some none ∧ d.get_mut i = some none ∧
      d.index i = none ∧ d.index_mut i = none) :=
  ⟨fun hi => get_lt hI hi, fun hi => get_ge hi⟩

/-- Witness for C5 at the concrete deque `w3` (contents `[7]`) and
index 0. -/
theorem c5_witness :
    RInv w3 ∧
    ((0 < w3.len → ∃ v : Nat,
        w3.wrap_add w3.tail 0 = some ((w3.tail + 0) % w3.cap) ∧
        w3.buffer_read ((w3.tail + 0) % w3.cap) = some v ∧
        w3.get 0 = some (some v) ∧ w3.get_mut 0 = some (some v) ∧
        w3.index 0 = some v ∧ w3.index_mut 0 = some v) ∧
      (w3.len ≤ 0 → w3.get 0 = some none ∧ w3.get_mut 0 = some none ∧
        w3.index 0 = none ∧ w3.index_mut 0 = none)) :=
  ⟨by decide, c5_get_index_contract w3 0 (by decide)⟩

/-- C6: on every well-formed empty state, `pop_front` and `pop_back`
return an empty result and leave the state (tail, head, and contents)
untouched; on every well-formed non-empty state, `pop_back` moves the head
back by one via `wrap_sub(head, 1)` and returns the element stored at the
new head, while `pop_front` returns the element stored at the original
tail and advances the tail by one via `wrap_add(tail, 1)`. -/
theorem c6_pop_contract {α : Type} (d : ArrayVecDeque α) (hI : RInv d) :
    (d.is_empty = true →
      d.pop_front = some (none, d) ∧ d.pop_back = some (none, d)) ∧
    (d.is_empty = false →
      (∃ v : α, d.wrap_sub d.head 1 = some ((d.head + (d.cap - 1)) % d.cap) ∧
        d.buffer_read ((d.head + (d.cap - 1)) % d.cap) = some v ∧
        d.pop_back = some (some v, ⟨d.tail, (d.head + (d.cap - 1)) % d.cap, d.buf⟩)) ∧
      (∃ w : α, d.wrap_add d.tail 1 = some ((d.tail + 1) % d.cap) ∧
        d.buffer_read d.tail = some w ∧
        d.pop_front = some (some w, ⟨(d.tail + 1) % d.cap, d.head, d.buf⟩))) := by
  refine ⟨fun hemp => ⟨pop_front_empty hemp, pop_back_empty hemp⟩, fun hne => ⟨?_, ?_⟩⟩
  · obtain ⟨v, d2, hsl, hbr, hpop, hd2eq, _, _, _, _⟩ := pop_back_ok hI hne
    rw [hd2eq] at hpop
    exact ⟨v, wrap_sub_one (cap_le hI) (cap_pos hI) hI.2.1, hbr, hpop⟩
  · obtain ⟨w, d2, hsl, hbr, hpop, hd2eq, _, _, _, _⟩ := pop_front_ok hI hne
    rw [hd2eq] at hpop
    exact ⟨w, wrap_add_eq (cap_pos hI) (by have h1 := hI.1; have h2 := hI.2.2.1; omega),
      hbr, hpop⟩

/-- Witness for C6 at the concrete non-empty deque `w3`. -/
theorem c6_witness :
    RInv w3 ∧
    ((w3.is_empty = true →
        w3.pop_front = some (none, w3) ∧ w3.pop_back = some (none, w3)) ∧
      (w3.is_empty = false →
        (∃ v : Nat, w3.wrap_sub w3.head 1 = some ((w3.head + (w3.cap - 1)) % w3.cap) ∧
          w3.buffer_read ((w3.head + (w3.cap - 1)) % w3.cap) = some v ∧
          w3.pop_back = some (some v, ⟨w3.tail, (w3.head + (w3.cap - 1)) % w3.cap, w3.buf⟩)) ∧
        (∃ w : Nat, w3.wrap_add w3.tail 1 = some ((w3.tail + 1) % w3.cap) ∧
          w3.buffer_read w3.tail = some w ∧
          w3.pop_front = some (some w, ⟨(w3.tail + 1) % w3.cap, w3.head, w3.buf⟩)))) :=
  ⟨by decide, c6_pop_contract w3 (by decide)⟩

/-- C7 counterexample: at the supported array size 0 the fresh buffer is
non-full (`is_full() = false`, since `cap - len = 0 ≠ 1`), yet
`try_push_back` panics at `wrap_index`'s `1 % 0` (modeled `none`) instead
of storing the value, and the unwrapping `push_back` likewise panics — so
`push_back(x)` immediately followed by `pop_back()` does not return `x`
on that non-full state, refuting the claim as stated. -/
theorem c7_counterexample :
    (0 : Nat) ∈ supportedSizes ∧
    (ArrayVecDeque.new Nat 0).is_full = false ∧
    (ArrayVecDeque.new Nat 0).try_push_back 42 = none ∧
    (ArrayVecDeque.new Nat 0).push_back 42 = none :=
  ⟨by decide, by decide, rfl, rfl⟩

/-- C7 amended: on every well-formed state with at least one physical slot
(the representation invariant, satisfied by every state reachable from
`new()` at a supported size N ≥ 1) that is non-full, `push_back(x)`
immediately followed by `pop_back()` returns `x` and leaves the buffer
with the prior length and the prior tail and head cursor positions.  At
the supported size N = 0 the fresh buffer is non-full yet `push_back`
panics, so the round trip fails there. -/
theorem c7_push_pop_roundtrip {α : Type} (d : ArrayVecDeque α) (x : α)
    (hI : RInv d) (hnf : d.is_full = false) :
    ∃ d2 d3 : ArrayVecDeque α,
      d.try_push_back x = some (Except.ok (), d2) ∧
      d2.pop_back = some (some x, d3) ∧
      d3.len = d.len ∧ d3.tail = d.tail ∧ d3.head = d.head := by
  have hroom := room_of_not_full hI hnf
  have hpos := cap_pos hI
  have hh := hI.2.1
  obtain ⟨d2, heq2, hd2eq, hI2, hcap2, hlen2, hslot2, _⟩ := try_push_back_ok hI x hroom
  have hne2 : d2.is_empty = false := is_empty_false_of_len_pos hI2 (by omega)
  obtain ⟨w, d3, hsl3, hbr3, hpop3, hd3eq, hI3, hcap3, hlen3, _⟩ := pop_back_ok hI2 hne2
  have hw : w = x := by
    rw [hlen2, Nat.add_sub_cancel, hslot2] at hsl3
    exact (Option.some.injEq .. ▸ hsl3).symm
  subst hw
  have hhead2 : d2.head = (d.head + 1) % d.cap := by rw [hd2eq]
  have htail2 : d2.tail = d.tail := by rw [hd2eq]
  have htail3 : d3.tail = d.tail := by
    rw [hd3eq]
    exact htail2
  have hhead3 : d3.head = d.head := by
    rw [hd3eq]
    show (d2.head + (d2.cap - 1)) % d2.cap = d.head
    rw [hcap2, hhead2]
    exact add_one_sub_one_mod hpos hh
  exact ⟨d2, d3, heq2, hpop3, by omega, htail3, hhead3⟩

/-- Witness for C7 at the concrete non-full deque `w3` and value 42. -/
theorem c7_witness :
    (RInv w3 ∧ w3.is_full = false) ∧
    (∃ d2 d3 : ArrayVecDeque Nat,
      w3.try_push_back 42 = some (Except.ok (), d2) ∧
      d2.pop_back = some (some 42, d3) ∧
      d3.len = w3.len ∧ d3.tail = w3.tail ∧ d3.head = w3.head) :=
  ⟨⟨by decide, by decide⟩, c7_push_pop_roundtrip w3 42 (by decide) (by decide)⟩

/-- C8: on every well-formed state, `clear()` pops exactly the logical
contents, front first (ascending logical order, each element exactly
once), ends with `len() = 0`, and a second `clear()` on the now-empty
buffer is a no-op that does not fail; `clear()` on an already-empty buffer
is likewise a no-op. -/
theorem c8_clear_contract {α : Type} (d : ArrayVecDeque α) (hI : RInv d) :
    (∃ d2 : ArrayVecDeque α,
      d.clear = some (toList d, d2) ∧ d2.len = 0 ∧ d2.is_empty = true ∧
      d2.clear = some ([], d2)) ∧
    (d.is_empty = true → d.clear = some ([], d)) := by
  obtain ⟨h1, hI2, hlen0⟩ := clear_ok hI
  set d2 : ArrayVecDeque α := ⟨d.head, d.head, d.buf⟩ with hd2
  have hemp2 : d2.is_empty = true := by
    show (d.head == d.head) = true
    simp
  have htl2 : toList d2 = [] := toList_nil hlen0
  have hclear2 : d2.clear = some ([], d2) := by
    have h2 := clearAux_ok 0 d2 hI2 hlen0
    show clearAux (d2.len + 1) d2 = some ([], d2)
    rw [hlen0, h2, htl2]
  refine ⟨⟨d2, h1, hlen0, hemp2, hclear2⟩, fun hemp => ?_⟩
  have hlen0d : d.len = 0 := (is_empty_iff hI).mp hemp
  have hth : d.tail = d.head := by
    unfold is_empty at hemp
    rw [beq_iff_eq] at hemp
    exact hemp
  have htld : toList d = [] := toList_nil hlen0d
  have hd2d : d2 = d :=
    calc d2 = ⟨d.head, d.head, d.buf⟩ := hd2
      _ = ⟨d.tail, d.head, d.buf⟩ := by rw [hth]
      _ = d := rfl
  rw [h1, htld, hd2d]

/-- Witness for C8 at the concrete deque `w3` (contents `[7]`). -/
theorem c8_witness :
    RInv w3 ∧
    ((∃ d2 : ArrayVecDeque Nat,
        w3.clear = some (toList w3, d2) ∧ d2.len = 0 ∧ d2.is_empty = true ∧
        d2.clear = some ([], d2)) ∧
      (w3.is_empty = true → w3.clear = some ([], w3))) :=
  ⟨by decide, c8_clear_contract w3 (by decide)⟩

end ArrayVecDeque

end ArrayVecDequeSpec
